import Mathlib

/- Verification of the indexing-and-search core of distrohop: the shard
store (package values, bloom filters, prefix scans, atomic replace, lock
discipline), the parallel tag search, and the tag extractor. Go strings
are modelled as lists of characters, Go float32 confidence scores as
rationals, and the pebble key/value database as an association list in
ascending key order. -/

namespace Distrohop

/-- Go strings are byte sequences; this development models them as lists of
characters (package names and tags handled by the store are ASCII, where
the two notions coincide). -/
abbrev GoStr := List Char

/-- The unit-separator byte 0x1F used by the store to join a package's tags
into a single stored value. -/
def sepChar : Char := '\x1F'

/-- Model of strings.Split on a single-character separator: accumulate the
current segment (reversed) and emit it at each separator and at the end. -/
def splitChAux (sep : Char) : List Char → List Char → List (List Char)
  | [], acc => [acc.reverse]
  | c :: rest, acc =>
    if c = sep then acc.reverse :: splitChAux sep rest []
    else splitChAux sep rest (c :: acc)

/-- strings.Split of a string on a one-character separator. -/
def splitCh (sep : Char) (s : GoStr) : List GoStr := splitChAux sep s []

/-- Splitting a stored package value on the 0x1F separator, as GetPkg and
Search do on values read back from the database. -/
def splitTags (v : GoStr) : List GoStr := splitCh sepChar v

/-- Joining tags with the 0x1F separator, as joinTags does when it writes a
package value. -/
def joinVal : List GoStr → GoStr
  | [] => []
  | [t] => t
  | t :: ts => t ++ sepChar :: joinVal ts

/-- A word character in Go RE2 (the class backslash-w): ASCII letters,
digits and underscore. -/
def isWordChar (c : Char) : Bool := c.isAlphanum || c = '_'

/-- Unanchored search for the pattern w+=.+ of combined.go's tagRegex: the
string matches iff some position carries a word character immediately
followed by an equals sign immediately followed by a non-newline character,
which is exactly when the regular expression finds a match somewhere in the
string. -/
def tagMatchAux : List Char → Bool
  | c1 :: c2 :: c3 :: rest =>
    (isWordChar c1 && c2 = '=' && !(c3 = '\n')) || tagMatchAux (c2 :: c3 :: rest)
  | _ => false

/-- tagRegex.MatchString of combined.go: the tag is valid iff the pattern
w+=.+ matches somewhere in it. -/
def tagIsValid (t : GoStr) : Bool := tagMatchAux t

/-- Association-list lookup keyed on the first matching entry; models both
a pebble point read and a Go map read in this development. -/
def alookup {α β : Type} [DecidableEq α] : List (α × β) → α → Option β
  | [], _ => none
  | (k, v) :: rest, k0 => if k = k0 then some v else alookup rest k0

/-- Model of a zeebo/sbloom scalable bloom filter. The dependency's contract
is that Lookup returns true for every element previously passed to Add and
may also return true spuriously; the model records exactly the added
elements and realizes the run in which no spurious collision occurs. No
theorem below relies on the absence of false positives. -/
structure Filter where
  elems : List GoStr
deriving DecidableEq

/-- sbloom Filter.Add. -/
def Filter.add (f : Filter) (t : GoStr) : Filter := ⟨t :: f.elems⟩

/-- sbloom Filter.Lookup: true for every added element. -/
def Filter.find (f : Filter) (t : GoStr) : Bool := f.elems.contains t

/-- sbloom.NewFilter (xxhash, 10): a fresh, empty filter. -/
def Filter.new : Filter := ⟨[]⟩

/-- The in-memory map from a package name's first byte to its bloom filter
(Go map of byte to Filter pointer). -/
abbrev FilterMap := List (Char × Filter)

/-- A package as returned by the store. -/
structure Package where
  name : GoStr
  tags : List GoStr
deriving DecidableEq

/-- One search hit: confidence (a float32 in Go, modelled as a rational),
the overlapping tags, and the matched package. -/
structure TagResult where
  confidence : ℚ
  overlap : List GoStr
  package : Package
deriving DecidableEq

deriving instance DecidableEq for Except

/-- Errors surfaced by store operations. -/
inductive StoreErr
  | blocked
  | invalidTag
  | notFound
deriving DecidableEq

/-- One shard: the user-key space of the pebble database (package name to
joined tag value, listed in ascending key order, which is the iteration
order pebble provides) together with the persisted per-first-byte bloom
filters, which live under the reserved 0x02-prefixed keys and are therefore
disjoint from the user keys. -/
structure Shard where
  pkgs : List (GoStr × GoStr)
  filters : FilterMap
deriving DecidableEq

/-- startChars of combined.go: the 62 possible first bytes of a package
name, one search partition each. -/
def startChars : List Char :=
  ['0', '1', '2', '3', '4', '5', '6', '7', '8', '9',
   'A', 'B', 'C', 'D', 'E', 'F', 'G', 'H', 'I', 'J', 'K', 'L', 'M',
   'N', 'O', 'P', 'Q', 'R', 'S', 'T', 'U', 'V', 'W', 'X', 'Y', 'Z',
   'a', 'b', 'c', 'd', 'e', 'f', 'g', 'h', 'i', 'j', 'k', 'l', 'm',
   'n', 'o', 'p', 'q', 'r', 's', 't', 'u', 'v', 'w', 'x', 'y', 'z']

/-- overlap of combined.go: the input tags also carried by the package, in
input order and multiplicity, and the confidence ratio of the two lengths
(float32 division in Go, exact division in the model). -/
def overlapList (stags ptags : List GoStr) : List GoStr :=
  stags.filter (fun t => ptags.contains t)

/-- The body of one worker iteration of Store.Search for the partition of
first byte c: load the bloom filter (a missing filter means no package
starts with c and the partition is skipped), gate on any input tag possibly
being present, then scan the partition range and keep every package with
nonzero confidence. -/
def scanPartition (s : Shard) (tags : List GoStr) (c : Char) : List TagResult :=
  match alookup s.filters c with
  | none => []
  | some f =>
    if tags.any (fun t => f.find t) then
      (s.pkgs.filter (fun p => p.1.head? = some c)).filterMap (fun p =>
        let ptags := splitTags p.2
        let ov := overlapList tags ptags
        let conf : ℚ := mkRat ov.length tags.length
        if conf = 0 then none
        else some ⟨conf, ov, ⟨p.1, ptags⟩⟩)
    else []

/-- Byte-wise lexicographic strict order on Go strings. -/
def strLtB : GoStr → GoStr → Bool
  | [], [] => false
  | [], _ :: _ => true
  | _ :: _, [] => false
  | a :: as, b :: bs =>
    if a.toNat < b.toNat then true
    else if b.toNat < a.toNat then false
    else strLtB as bs

/-- Byte-wise lexicographic order, non-strict. -/
def strLeB (a b : GoStr) : Bool := !(strLtB b a)

/-- The SortFunc comparator of SortResults, as an order test: a sorts no
later than b when a's confidence is higher, or equal with a's package name
no later. -/
def resLeB (a b : TagResult) : Bool :=
  if b.confidence < a.confidence then true
  else if a.confidence < b.confidence then false
  else strLeB a.package.name b.package.name

/-- Insertion step of the model's sort of results. -/
def insertRes (r : TagResult) : List TagResult → List TagResult
  | [] => [r]
  | x :: xs => if resLeB r x then r :: x :: xs else x :: insertRes r xs

/-- SortResults of combined.go: order by confidence descending, package
name ascending. -/
def sortResults : List TagResult → List TagResult
  | [] => []
  | x :: xs => insertRes x (sortResults xs)

/-- Store.Search of combined.go: validate every tag against tagRegex before
touching the database, then process the 62 partitions (the worker pool
covers each exactly once) and sort the merged results. -/
def searchShard (s : Shard) (tags : List GoStr) : Except StoreErr (List TagResult) :=
  if tags.all tagIsValid then
    .ok (sortResults ((startChars.map (scanPartition s tags)).flatten))
  else .error .invalidTag

/-- The successor of a byte, with Go's wraparound at 255, applied by
Store.GetPkgNamesByPrefix to the last byte of the prefix. -/
def charSucc (c : Char) : Char := Char.ofNat ((c.toNat + 1) % 256)

/-- The iterator upper bound of Store.GetPkgNamesByPrefix: the prefix with
its last byte incremented. The computation indexes the byte at position
length - 1, which is an out-of-range access on the empty prefix; the model
returns none there, standing for the Go runtime panic. -/
def upperBoundOfPfx : GoStr → Option GoStr
  | [] => none
  | [c] => some [charSucc c]
  | c :: c2 :: rest => (upperBoundOfPfx (c2 :: rest)).map (fun u => c :: u)

/-- The keys the prefix iterator ranges over: the package names in the
half-open interval from the prefix (inclusive) to the incremented-byte
upper bound (exclusive), in the shard's ascending key order. -/
def rangeKeys (s : Shard) (pfx : GoStr) : Option (List GoStr) :=
  (upperBoundOfPfx pfx).map (fun ub =>
    (s.pkgs.map Prod.fst).filter (fun k => strLeB pfx k && strLtB k ub))

/-- The collection loop of Store.GetPkgNamesByPrefix: the counter i starts
at zero and the loop breaks as soon as i equals n - 1, checked before the
key is appended. -/
def pfxLoop (n : Int) (i : Int) : List GoStr → List GoStr
  | [] => []
  | k :: ks => if i = n - 1 then [] else k :: pfxLoop n (i + 1) ks

/-- Store.GetPkgNamesByPrefix of combined.go: scan the range keys, capped
by the break-at-i-equals-n-minus-one loop; none models the out-of-range
panic on an empty prefix. -/
def getPkgNamesByPfx (s : Shard) (pfx : GoStr) (n : Int) : Option (List GoStr) :=
  (rangeKeys s pfx).map (fun ks => pfxLoop n 0 ks)

/-- Insertion-sort step ordering Go strings byte-wise, modelling
slices.Sort on the tag slice in Store.WriteBatch. -/
def insertStr (t : GoStr) : List GoStr → List GoStr
  | [] => [t]
  | x :: xs => if strLeB t x then t :: x :: xs else x :: insertStr t xs

/-- slices.Sort on a tag slice. -/
def sortStrs : List GoStr → List GoStr
  | [] => []
  | x :: xs => insertStr x (sortStrs xs)

/-- slices.Compact: collapse runs of consecutive equal elements to one. -/
def compactStrs : List GoStr → List GoStr
  | [] => []
  | [x] => [x]
  | x :: y :: rest =>
    if x = y then compactStrs (y :: rest) else x :: compactStrs (y :: rest)

/-- Add every listed tag to a bloom filter, as the loop body of joinTags
does while it serializes the value. -/
def addAll (f : Filter) (ts : List GoStr) : Filter := ts.foldl Filter.add f

/-- Update the filter stored under a first-byte key, leaving other entries
unchanged. -/
def updateF : FilterMap → Char → (Filter → Filter) → FilterMap
  | [], _, _ => []
  | (c, f) :: rest, c0, g =>
    if c = c0 then (c, g f) :: rest else (c, f) :: updateF rest c0 g

/-- joinTags of combined.go: create the filter for the first byte if it is
absent, add every tag to it, and serialize the tags joined by 0x1F. -/
def joinTags (c : Char) (ts : List GoStr) (fm : FilterMap) : GoStr × FilterMap :=
  let fm1 := if (alookup fm c).isSome then fm else (c, Filter.new) :: fm
  (joinVal ts, updateF fm1 c (fun f => addAll f ts))

/-- A pebble Set into the user key space: overwrite the entry of the key,
or append a fresh entry. -/
def dbSet : List (GoStr × GoStr) → GoStr → GoStr → List (GoStr × GoStr)
  | [], k, v => [(k, v)]
  | (k0, v0) :: rest, k, v =>
    if k0 = k then (k, v) :: rest else (k0, v0) :: dbSet rest k v

/-- The tag set staged for one record of Store.WriteBatch: a fresh package
takes its deduped sorted tags; an existing package has its stored value
split on 0x1F, the incoming tags appended, and the union sorted and
deduped. The read goes against the pre-batch database state, since batch
writes are not visible to reads before the commit. -/
def mergedTags (db0 : List (GoStr × GoStr)) (name : GoStr)
    (tags : List GoStr) : List GoStr :=
  match alookup db0 name with
  | none => compactStrs (sortStrs tags)
  | some cur => compactStrs (sortStrs (splitTags cur ++ tags))

/-- The per-record loop of Store.WriteBatch: skip records with an empty
name or no tags; merge and dedupe the tags against the pre-batch value of
the key, and stage the joined value while joinTags feeds the bloom
filters. Returns the staged writes in order together with the updated
filter map. -/
def writeBatchItems (db0 : List (GoStr × GoStr)) :
    List (GoStr × List GoStr) → FilterMap → List (GoStr × GoStr) × FilterMap
  | [], fm => ([], fm)
  | (name, tags) :: rest, fm =>
    match name, tags with
    | [], _ => writeBatchItems db0 rest fm
    | _ :: _, [] => writeBatchItems db0 rest fm
    | c :: nrest, tg :: tgs =>
      let vfm := joinTags c (mergedTags db0 (c :: nrest) (tg :: tgs)) fm
      let out := writeBatchItems db0 rest vfm.2
      ((c :: nrest, vfm.1) :: out.1, out.2)

/-- Store.WriteBatch of combined.go: stage every record against the
pre-batch database state, then commit the staged writes in order. -/
def writeBatch (db : List (GoStr × GoStr)) (fm : FilterMap)
    (items : List (GoStr × List GoStr)) : List (GoStr × GoStr) × FilterMap :=
  let st := writeBatchItems db items fm
  (st.1.foldl (fun d kv => dbSet d kv.1 kv.2) db, st.2)

/-- The ingestion phase of the refresh pipeline of pull.go: the shadow
shard starts from an empty database, one shared filter map is threaded
through every WriteBatch call, and WriteFilters persists that map at the
end. -/
def refreshBatches (batches : List (List (GoStr × List GoStr))) :
    List (GoStr × GoStr) × FilterMap :=
  batches.foldl (fun st b => writeBatch st.1 st.2 b) ([], [])

/-- Overwrite-or-append on the persisted filter key space, modelling the
database Set on the key 0x02 followed by the first byte. -/
def fmSet : FilterMap → Char → Filter → FilterMap
  | [], c, f => [(c, f)]
  | (c0, f0) :: rest, c, f =>
    if c0 = c then (c, f) :: rest else (c0, f0) :: fmSet rest c f

/-- Store.WriteFilters of combined.go: persist every entry of the filter
map under its 0x02-prefixed key. -/
def writeFilters (persisted : FilterMap) (fm : FilterMap) : FilterMap :=
  fm.foldl (fun m cf => fmSet m cf.1 cf.2) persisted

/-- A shard together with its lock observables: writerHeld is true exactly
while a Replace holds the exclusive side of the blocked RWMutex, in which
state every TryRLock in the other operations fails at once. The repository
metadata value and the closed flag model the META key and the state of the
underlying database handle. -/
structure LockedShard where
  writerHeld : Bool
  shard : Shard
  meta : Option GoStr
  closed : Bool
deriving DecidableEq

/-- Store.WriteBatch behind its TryRLock guard. -/
def writeBatchL (ls : LockedShard) (items : List (GoStr × List GoStr))
    (fm : FilterMap) : Except StoreErr (LockedShard × FilterMap) :=
  if ls.writerHeld then .error .blocked
  else
    let st := writeBatch ls.shard.pkgs fm items
    .ok (⟨ls.writerHeld, ⟨st.1, ls.shard.filters⟩, ls.meta, ls.closed⟩, st.2)

/-- Store.WriteFilters behind its TryRLock guard. -/
def writeFiltersL (ls : LockedShard) (fm : FilterMap) :
    Except StoreErr LockedShard :=
  if ls.writerHeld then .error .blocked
  else .ok ⟨ls.writerHeld, ⟨ls.shard.pkgs, writeFilters ls.shard.filters fm⟩,
            ls.meta, ls.closed⟩

/-- Store.GetFilter behind its TryRLock guard. -/
def getFilterL (ls : LockedShard) (c : Char) : Except StoreErr Filter :=
  if ls.writerHeld then .error .blocked
  else
    match alookup ls.shard.filters c with
    | none => .error .notFound
    | some f => .ok f

/-- Store.GetPkg behind its TryRLock guard: a point read of the name key,
splitting the value on 0x1F. -/
def getPkgL (ls : LockedShard) (name : GoStr) : Except StoreErr Package :=
  if ls.writerHeld then .error .blocked
  else
    match alookup ls.shard.pkgs name with
    | none => .error .notFound
    | some v => .ok ⟨name, splitTags v⟩

/-- Store.GetPkgNamesByPrefix behind its TryRLock guard. -/
def getPkgNamesByPfxL (ls : LockedShard) (pfx : GoStr) (n : Int) :
    Except StoreErr (Option (List GoStr)) :=
  if ls.writerHeld then .error .blocked
  else .ok (getPkgNamesByPfx ls.shard pfx n)

/-- Store.WriteMeta behind its TryRLock guard: store the serialized
metadata under the META key. -/
def writeMetaL (ls : LockedShard) (m : GoStr) : Except StoreErr LockedShard :=
  if ls.writerHeld then .error .blocked
  else .ok ⟨ls.writerHeld, ls.shard, some m, ls.closed⟩

/-- Store.GetMeta behind its TryRLock guard. -/
def getMetaL (ls : LockedShard) : Except StoreErr GoStr :=
  if ls.writerHeld then .error .blocked
  else
    match ls.meta with
    | none => .error .notFound
    | some m => .ok m

/-- Store.Close behind its TryRLock guard. -/
def closeL (ls : LockedShard) : Except StoreErr LockedShard :=
  if ls.writerHeld then .error .blocked
  else .ok ⟨ls.writerHeld, ls.shard, ls.meta, true⟩

/-- A directory tree as the replace protocol sees it: an association from
paths to opaque database contents. -/
abbrev FS := List (GoStr × Nat)

/-- os.RemoveAll on a path: afterwards nothing lives at that path. -/
def fsRemove : FS → GoStr → FS
  | [], _ => []
  | e :: rest, p => if e.1 = p then fsRemove rest p else e :: fsRemove rest p

/-- os.Rename: move the contents from src to dst; fails (none) when
nothing lives at src. -/
def fsRename (fs : FS) (src dst : GoStr) : Option FS :=
  match alookup fs src with
  | none => none
  | some c => some ((dst, c) :: fsRemove (fsRemove fs src) dst)

/-- Which step of Store.Replace reported failure; rename2 carries whether
the rollback rename of old-path back to the live path succeeded. -/
inductive RepStep
  | removeOld
  | closeS2
  | closeSelf
  | rename1
  | rename2 (rollbackOk : Bool)
  | reopen
  | cleanup
deriving DecidableEq

/-- The rollback of Store.Replace after the second rename fails: attempt
to rename old-path back to the live path and surface the joined error. -/
def replaceRollback (oracle : Nat → Bool) (fs1 : FS) (selfP oldP : GoStr) :
    FS × Option RepStep :=
  if oracle 5 then (fs1, some (.rename2 false))
  else
    match fsRename fs1 oldP selfP with
    | none => (fs1, some (.rename2 false))
    | some fs2 => (fs2, some (.rename2 true))

/-- Store.Replace of combined.go over the filesystem model. The oracle
decides, per numbered step, whether the environment fails that operation:
0 removes leftover old-path, 1 and 2 close the two databases, 3 renames
the live path aside to old-path, 4 renames the shadow path onto the live
path (with the rollback of step 5 on failure), 6 reopens the database,
7 removes old-path. A none result is full success. -/
def replaceRun (oracle : Nat → Bool) (fs : FS) (selfP s2P oldP : GoStr) :
    FS × Option RepStep :=
  if oracle 0 then (fs, some .removeOld)
  else
    let fs0 := fsRemove fs oldP
    if oracle 1 then (fs0, some .closeS2)
    else if oracle 2 then (fs0, some .closeSelf)
    else if oracle 3 then (fs0, some .rename1)
    else
      match fsRename fs0 selfP oldP with
      | none => (fs0, some .rename1)
      | some fs1 =>
        if oracle 4 then replaceRollback oracle fs1 selfP oldP
        else
          match fsRename fs1 s2P selfP with
          | none => replaceRollback oracle fs1 selfP oldP
          | some fs2 =>
            if oracle 6 then (fs2, some .reopen)
            else if oracle 7 then (fs2, some .cleanup)
            else (fsRemove fs2 oldP, none)

/-- path.Ext on a reversed string: collect characters from the end until
the last dot (which is kept) and stop at a slash or at the start, both of
which mean there is no extension. -/
def extFromRev : List Char → List Char → GoStr
  | [], _ => []
  | c :: rest, acc =>
    if c = '/' then []
    else if c = '.' then '.' :: acc
    else extFromRev rest (c :: acc)

/-- path.Ext: the suffix of the final path element beginning at its last
dot, empty when there is none. -/
def pathExt (s : GoStr) : GoStr := extFromRev s.reverse []

/-- strings.TrimSuffix. -/
def trimSuffixStr (s suf : GoStr) : GoStr :=
  if suf.isSuffixOf s then s.take (s.length - suf.length) else s

/-- strings.TrimPrefix. -/
def trimPfxStr (s pre : GoStr) : GoStr :=
  if pre.isPrefixOf s then s.drop pre.length else s

/-- strings.Cut and strings.Index: split around the first occurrence of
the pattern, none when the pattern does not occur. -/
def strCut (pat : GoStr) : GoStr → Option (GoStr × GoStr)
  | [] => if pat = [] then some ([], []) else none
  | c :: rest =>
    if pat.isPrefixOf (c :: rest) then some ([], (c :: rest).drop pat.length)
    else (strCut pat rest).map (fun pr => (c :: pr.1, pr.2))

/-- isNum of tags.go: every byte is an ASCII digit; vacuously true on the
empty string. -/
def isNum (s : GoStr) : Bool := s.all (fun c => '0' ≤ c && c ≤ '9')

/-- soversionIsValid of tags.go: the suffix after ".so" is empty, or every
dot-separated segment is all-numeric. -/
def soversionIsValid (s : GoStr) : Bool :=
  if s = [] then true else (splitCh '.' s).all isNum

/-- manualName of tags.go: strip one trailing ".gz", then require a
numeric extension. -/
def manualName (fileName : GoStr) : GoStr :=
  let fn := trimSuffixStr fileName ".gz".data
  let ext := pathExt fn
  if ext.length = 0 || !(isNum (ext.drop 1)) then [] else fn

/-- One probe of pythonName: find the bucket pattern in the path, then
take the path segment right after it. -/
def pyFrom (pat fp : GoStr) : Option GoStr :=
  match strCut pat fp with
  | none => none
  | some pr =>
    match strCut ['/'] pr.2 with
    | none => none
    | some pr2 => some pr2.1

/-- pythonName of tags.go: the first path segment after a dist-packages or
site-packages directory, or empty when there is none. -/
def pythonName (fp : GoStr) : GoStr :=
  match pyFrom "/dist-packages/".data fp with
  | some r => r
  | none =>
    match pyFrom "/site-packages/".data fp with
    | some r => r
    | none => []

/-- The lib, lib32, lib64 bucket of Generate: a basename containing ".so"
with a valid soversion suffix yields lib of the basename, and the source's
guard on the last byte, written as the disjunction it literally is,
decides whether the two shortened variants are added; otherwise a ".a"
extension yields the basename with and without it. -/
def libTags (name : GoStr) : List GoStr :=
  match strCut ".so".data name with
  | some pr =>
    if soversionIsValid pr.2 then
      let base := ["lib=".data ++ name]
      match name.getLast? with
      | none => base
      | some lastChar =>
        if '0' ≤ lastChar ∨ lastChar ≤ '9' then
          base ++ ["lib=".data ++ pr.1 ++ ".so".data,
                   "lib=".data ++ trimPfxStr pr.1 "lib".data]
        else base
    else if pathExt name = ".a".data then
      ["lib=".data ++ name, "lib=".data ++ trimSuffixStr name ".a".data]
    else []
  | none =>
    if pathExt name = ".a".data then
      ["lib=".data ++ name, "lib=".data ++ trimSuffixStr name ".a".data]
    else []

/-- The tags one directory segment contributes in Generate's walk; an
empty result leaves the added flag unset so the walk continues. -/
def genElem (name fp : GoStr) (elem : GoStr) : List GoStr :=
  if elem = "usr".data ∨ elem = "opt".data ∨ elem = "local".data ∨
      elem = "share".data then []
  else if elem = "bin".data ∨ elem = "sbin".data then
    ["bin=".data ++ name]
  else if elem = "icons".data ∨ elem = "pixmaps".data then
    if pathExt name = ".svg".data ∨ pathExt name = ".png".data ∨
        pathExt name = ".jpg".data ∨ pathExt name = ".jpeg".data then
      ["icon=".data ++ name]
    else []
  else if elem = "man".data then
    if manualName name = [] then [] else ["man=".data ++ manualName name]
  else if elem = "dist-packages".data ∨ elem = "site-packages".data then
    if pythonName fp = [] then [] else ["py=".data ++ pythonName fp]
  else if elem = "pkgconfig".data ∨ elem = "pkg-config".data then
    if pathExt name = ".pc".data then
      ["pkgcfg=".data ++ trimSuffixStr name ".pc".data]
    else []
  else if elem = "applications".data then
    if pathExt name = ".desktop".data then
      ["desktop=".data ++ trimSuffixStr name ".desktop".data]
    else []
  else if elem = "dbus-1".data then
    if pathExt name = ".service".data then
      ["dbus=".data ++ trimSuffixStr name ".service".data]
    else []
  else if elem = "systemd".data then
    if pathExt name = ".service".data ∨ pathExt name = ".target".data ∨
        pathExt name = ".socket".data ∨ pathExt name = ".timer".data then
      ["systemd=".data ++ name]
    else []
  else if elem = "include".data then
    if pathExt name = ".h".data ∨ pathExt name = ".hh".data ∨
        pathExt name = ".hpp".data ∨ pathExt name = ".hxx".data ∨
        pathExt name = "h++".data then
      match strCut "include/".data fp with
      | some pr => ["hdr=".data ++ pr.2]
      | none => ["hdr=".data ++ name]
    else []
  else if elem = "lib".data ∨ elem = "lib32".data ∨ elem = "lib64".data then
    libTags name
  else []

/-- The walk over directory segments: the first segment that produces any
tags sets the added flag and breaks the loop. -/
def firstTags (name fp : GoStr) : List GoStr → Option (List GoStr)
  | [] => none
  | e :: rest =>
    match genElem name fp e with
    | [] => firstTags name fp rest
    | ts => some ts

/-- Split a path at its last slash into directory and basename; a path
without a slash makes Generate slice with index -1, a runtime panic, which
the model returns as none. -/
def breakRev : List Char → List Char → Option (GoStr × GoStr)
  | [], _ => none
  | c :: rest, acc =>
    if c = '/' then some (rest.reverse, acc) else breakRev rest (c :: acc)

/-- Generate of tags.go: split off the basename, walk the directory
segments for the first recognised bucket, and fall back to the file tag
when no bucket produced anything. -/
def Generate (fp : GoStr) : Option (List GoStr) :=
  match breakRev fp.reverse [] with
  | none => none
  | some dn =>
    match firstTags dn.2 fp (splitCh '/' dn.1) with
    | some ts => some ts
    | none => some ["file=".data ++ fp]

/- Helper lemmas. -/

theorem mem_insertRes {x r : TagResult} {l : List TagResult} :
    x ∈ insertRes r l ↔ x = r ∨ x ∈ l := by
  induction l with
  | nil => simp [insertRes]
  | cons a as ih =>
    cases h : resLeB r a with
    | true => simp [insertRes, h]
    | false =>
      simp only [insertRes, h, Bool.false_eq_true, if_false, List.mem_cons, ih]
      tauto

theorem mem_sortResults {x : TagResult} {l : List TagResult} :
    x ∈ sortResults l ↔ x ∈ l := by
  induction l with
  | nil => simp [sortResults]
  | cons a as ih => simp [sortResults, mem_insertRes, ih]

theorem scanPartition_nil_tags (s : Shard) (c : Char) :
    scanPartition s [] c = [] := by
  unfold scanPartition
  cases alookup s.filters c <;> simp

/-- C10: on any shard state, a search with an empty tag list validates
vacuously, leaves the bloom-filter gate unsatisfied in each of the 62
first-byte partitions (there is no tag whose lookup could set found), so
every partition is skipped and the search succeeds with no results. -/
theorem search_empty_tags_returns_empty (s : Shard) :
    searchShard s [] = .ok [] ∧ startChars.length = 62 := by
  refine ⟨?_, by decide⟩
  unfold searchShard
  have h : ∀ c ∈ startChars, scanPartition s [] c = [] :=
    fun c _ => scanPartition_nil_tags s c
  have hflat : (startChars.map (scanPartition s [])).flatten = [] := by
    rw [List.flatten_eq_nil_iff]
    intro l hl
    rcases List.mem_map.mp hl with ⟨c, hc, rfl⟩
    exact h c hc
  simp [hflat, sortResults]

/-- C8: a search returns the invalid-tag error exactly when some input tag
fails the pattern of tagRegex, independently of the shard state (the
validation loop runs before any filter read, database iteration or worker
dispatch); in particular searching for the single tag justfoo fails. -/
theorem search_invalid_tag_iff (s : Shard) (tags : List GoStr) :
    (searchShard s tags = .error .invalidTag ↔ ∃ t ∈ tags, tagIsValid t = false) ∧
    searchShard s ["justfoo".data] = .error .invalidTag := by
  constructor
  · unfold searchShard
    cases h : tags.all tagIsValid with
    | true =>
      simp only [h, if_true]
      constructor
      · intro hcontra
        exact absurd hcontra (by simp)
      · rintro ⟨t, ht, hbad⟩
        have := (List.all_eq_true.mp h) t ht
        rw [hbad] at this
        cases this
    | false =>
      simp only [h, Bool.false_eq_true, if_false]
      constructor
      · intro _
        have : ¬ ∀ t ∈ tags, tagIsValid t = true := by
          intro hall
          rw [List.all_eq_true.mpr hall] at h
          cases h
        push_neg at this
        rcases this with ⟨t, ht, hbad⟩
        exact ⟨t, ht, by simpa using hbad⟩
      · intro _
        trivial
  · have hbad : (["justfoo".data] : List GoStr).all tagIsValid = false := by decide
    simp [searchShard, hbad]

theorem upperBoundOfPfx_isSome : ∀ pfx : GoStr, pfx ≠ [] →
    (upperBoundOfPfx pfx).isSome = true
  | [c], _ => by simp [upperBoundOfPfx]
  | c :: c2 :: rest, _ => by
    have ih := upperBoundOfPfx_isSome (c2 :: rest) (by simp)
    unfold upperBoundOfPfx
    cases hub : upperBoundOfPfx (c2 :: rest) with
    | none => rw [hub] at ih; cases ih
    | some u => simp

/-- C9: the prefix scan is total exactly on non-empty prefixes: the upper
bound of the iterator indexes the byte at position length minus one, which
exists for every non-empty prefix, while the empty prefix makes that index
out of range (a Go runtime panic, the none of the model). -/
theorem get_pkg_names_total_iff_nonempty_pfx (s : Shard) (pfx : GoStr) (n : Int) :
    (getPkgNamesByPfx s pfx n).isSome = true ↔ pfx ≠ [] := by
  constructor
  · intro h hnil
    subst hnil
    simp [getPkgNamesByPfx, rangeKeys, upperBoundOfPfx] at h
  · intro h
    have hs := upperBoundOfPfx_isSome pfx h
    rcases Option.isSome_iff_exists.mp hs with ⟨u, hu⟩
    simp [getPkgNamesByPfx, rangeKeys, hu]

/-- C5: the digit guard of the lib bucket is the disjunction last byte at
least zero-char or at most nine-char, which every byte satisfies, so the
two shortened lib variants are emitted for every basename containing .so
with a valid soversion, also when the last character is not a digit: for
the path /usr/lib/libfoo.so, whose basename ends in the non-digit o, all
three variants appear instead of the single claimed lib basename tag. -/
theorem generate_lib_variants_digit_guard_tautology :
    Generate "/usr/lib/libfoo.so".data =
      some ["lib=libfoo.so".data, "lib=libfoo.so".data, "lib=foo".data] ∧
    "libfoo.so".data.getLast? = some 'o' ∧ ('9' < 'o' ∧ '0' < 'o') := by
  exact ⟨by decide, by decide, by decide, by decide⟩

/-- The one-package shard on which the off-by-one of the prefix scan is
exhibited. -/
def shardC6 : Shard := ⟨[("aa".data, "k=v".data)], []⟩

/-- C6: the collection loop of the prefix scan breaks when the counter
equals n minus one before appending the current key, so the scan returns
at most n minus one names: with one name in the range of prefix a and
limit one the scan returns no names, where the claim requires exactly
one. -/
theorem get_pkg_names_break_off_by_one :
    rangeKeys shardC6 ['a'] = some ["aa".data] ∧
    getPkgNamesByPfx shardC6 ['a'] 1 = some [] ∧
    getPkgNamesByPfx shardC6 ['a'] 2 = some ["aa".data] := by
  exact ⟨by decide, by decide, by decide⟩

/-- C4: while a Replace holds the exclusive side of the lock, every other
operation of the shard store fails its TryRLock immediately and returns the
blocked error for every shard state, so the result neither reveals nor
changes any of the shard's contents; the error branch returns no successor
state, so no modification is possible. -/
theorem blocked_operations_fail_fast (ls : LockedShard)
    (h : ls.writerHeld = true) (items : List (GoStr × List GoStr))
    (fm : FilterMap) (c : Char) (name pfx m : GoStr) (n : Int) :
    writeBatchL ls items fm = .error .blocked ∧
    writeFiltersL ls fm = .error .blocked ∧
    getFilterL ls c = .error .blocked ∧
    getPkgL ls name = .error .blocked ∧
    getPkgNamesByPfxL ls pfx n = .error .blocked ∧
    writeMetaL ls m = .error .blocked ∧
    getMetaL ls = .error .blocked ∧
    closeL ls = .error .blocked := by
  refine ⟨?_, ?_, ?_, ?_, ?_, ?_, ?_, ?_⟩ <;>
    simp [writeBatchL, writeFiltersL, getFilterL, getPkgL, getPkgNamesByPfxL,
          writeMetaL, getMetaL, closeL, h]

/-- A concrete run of every guarded operation against a shard whose lock is
held by a replace. -/
theorem blocked_operations_fail_fast_witness :
    writeBatchL ⟨true, ⟨[], []⟩, none, false⟩ [] [] = .error .blocked ∧
    writeFiltersL ⟨true, ⟨[], []⟩, none, false⟩ [] = .error .blocked ∧
    getFilterL ⟨true, ⟨[], []⟩, none, false⟩ 'a' = .error .blocked ∧
    getPkgL ⟨true, ⟨[], []⟩, none, false⟩ [] = .error .blocked ∧
    getPkgNamesByPfxL ⟨true, ⟨[], []⟩, none, false⟩ ['a'] 1 = .error .blocked ∧
    writeMetaL ⟨true, ⟨[], []⟩, none, false⟩ [] = .error .blocked ∧
    getMetaL ⟨true, ⟨[], []⟩, none, false⟩ = .error .blocked ∧
    closeL ⟨true, ⟨[], []⟩, none, false⟩ = .error .blocked :=
  blocked_operations_fail_fast ⟨true, ⟨[], []⟩, none, false⟩ rfl [] [] 'a' [] ['a'] [] 1

theorem alookup_fsRemove_ne {fs : FS} {p q : GoStr} (h : p ≠ q) :
    alookup (fsRemove fs q) p = alookup fs p := by
  induction fs with
  | nil => rfl
  | cons e rest ih =>
    simp only [fsRemove]
    by_cases hk : e.1 = q
    · rw [if_pos hk, ih]
      have hne : ¬ e.1 = p := fun hc => h (by rw [← hc, hk])
      simp [alookup, hne]
    · rw [if_neg hk]
      simp only [alookup]
      by_cases hp : e.1 = p
      · rw [if_pos hp, if_pos hp]
      · rw [if_neg hp, if_neg hp, ih]

theorem alookup_fsRemove_self {fs : FS} {p : GoStr} :
    alookup (fsRemove fs p) p = none := by
  induction fs with
  | nil => rfl
  | cons e rest ih =>
    by_cases hk : e.1 = p
    · simp [fsRemove, hk, ih]
    · simp [fsRemove, hk, alookup, ih]

theorem fsRename_eq {fs : FS} {src : GoStr} {c : Nat}
    (h : alookup fs src = some c) (dst : GoStr) :
    fsRename fs src dst = some ((dst, c) :: fsRemove (fsRemove fs src) dst) := by
  simp [fsRename, h]

/-- C3 counterexample data: when both the second rename and the rollback
rename fail, Replace returns the joined error while the old database is
stranded at the old path and nothing lives at the live path. -/
theorem replace_double_rename_failure_loses_live_path :
    alookup ([(['s'], 0), (['t'], 1)] : FS) ['s'] = some 0 ∧
    (replaceRun (fun i => i == 4 || i == 5) [(['s'], 0), (['t'], 1)]
        ['s'] ['t'] ['o']).2 = some (.rename2 false) ∧
    alookup (replaceRun (fun i => i == 4 || i == 5) [(['s'], 0), (['t'], 1)]
        ['s'] ['t'] ['o']).1 ['s'] = none ∧
    alookup (replaceRun (fun i => i == 4 || i == 5) [(['s'], 0), (['t'], 1)]
        ['s'] ['t'] ['o']).1 ['o'] = some 0 := by
  exact ⟨by decide, by decide, by decide, by decide⟩

/-- C3 amended: a run of Replace either fully succeeds, leaving the new
contents at the live path and nothing at the old path, or returns an error
with the old contents surviving at the live path or at the old path; when
the second rename fails and the rollback rename succeeds, the old shard is
back at its original live path with the joined error surfaced. A failed
rollback, a failed reopen, or a failed final cleanup returns an error
without the old contents at the live path, which is why the unqualified
all-or-nothing reading fails. -/
theorem replace_preserves_old_contents_or_succeeds (oracle : Nat → Bool)
    (fs : FS) (selfP s2P oldP : GoStr) (cOld cNew : Nat)
    (h12 : selfP ≠ s2P) (h13 : selfP ≠ oldP) (h23 : s2P ≠ oldP)
    (hself : alookup fs selfP = some cOld)
    (hs2 : alookup fs s2P = some cNew) :
    ((replaceRun oracle fs selfP s2P oldP).2 = none →
        alookup (replaceRun oracle fs selfP s2P oldP).1 selfP = some cNew ∧
        alookup (replaceRun oracle fs selfP s2P oldP).1 oldP = none) ∧
    ((replaceRun oracle fs selfP s2P oldP).2 ≠ none →
        alookup (replaceRun oracle fs selfP s2P oldP).1 selfP = some cOld ∨
        alookup (replaceRun oracle fs selfP s2P oldP).1 oldP = some cOld) ∧
    ((replaceRun oracle fs selfP s2P oldP).2 = some (.rename2 true) →
        alookup (replaceRun oracle fs selfP s2P oldP).1 selfP = some cOld) := by
  by_cases h0 : oracle 0
  · have hrun : replaceRun oracle fs selfP s2P oldP = (fs, some .removeOld) := by
      simp [replaceRun, h0]
    rw [hrun]
    exact ⟨by simp, fun _ => Or.inl hself, by simp⟩
  have hself0 : alookup (fsRemove fs oldP) selfP = some cOld := by
    rw [alookup_fsRemove_ne h13]; exact hself
  have hs20 : alookup (fsRemove fs oldP) s2P = some cNew := by
    rw [alookup_fsRemove_ne h23]; exact hs2
  by_cases h1 : oracle 1
  · have hrun : replaceRun oracle fs selfP s2P oldP =
        (fsRemove fs oldP, some .closeS2) := by
      simp [replaceRun, h0, h1]
    rw [hrun]
    exact ⟨by simp, fun _ => Or.inl hself0, by simp⟩
  by_cases h2 : oracle 2
  · have hrun : replaceRun oracle fs selfP s2P oldP =
        (fsRemove fs oldP, some .closeSelf) := by
      simp [replaceRun, h0, h1, h2]
    rw [hrun]
    exact ⟨by simp, fun _ => Or.inl hself0, by simp⟩
  by_cases h3 : oracle 3
  · have hrun : replaceRun oracle fs selfP s2P oldP =
        (fsRemove fs oldP, some .rename1) := by
      simp [replaceRun, h0, h1, h2, h3]
    rw [hrun]
    exact ⟨by simp, fun _ => Or.inl hself0, by simp⟩
  -- the first rename succeeds and moves the old contents aside
  have hr1 := fsRename_eq hself0 oldP
  set fs1 : FS :=
    (oldP, cOld) :: fsRemove (fsRemove (fsRemove fs oldP) selfP) oldP with hfs1
  have hfs1old : alookup fs1 oldP = some cOld := by simp [hfs1, alookup]
  have hfs1self : alookup fs1 selfP = none := by
    have hne : ¬ oldP = selfP := fun hc => h13 hc.symm
    simp only [hfs1, alookup, hne, if_false]
    rw [alookup_fsRemove_ne h13, alookup_fsRemove_self]
  have hfs1s2 : alookup fs1 s2P = some cNew := by
    have hne : ¬ oldP = s2P := fun hc => h23 hc.symm
    simp only [hfs1, alookup, hne, if_false]
    rw [alookup_fsRemove_ne h23, alookup_fsRemove_ne h12.symm]
    exact hs20
  have hrollback :
      ((replaceRollback oracle fs1 selfP oldP).2 ≠ none →
          alookup (replaceRollback oracle fs1 selfP oldP).1 selfP = some cOld ∨
          alookup (replaceRollback oracle fs1 selfP oldP).1 oldP = some cOld) ∧
      ((replaceRollback oracle fs1 selfP oldP).2 = some (.rename2 true) →
          alookup (replaceRollback oracle fs1 selfP oldP).1 selfP = some cOld) ∧
      (replaceRollback oracle fs1 selfP oldP).2 ≠ none := by
    by_cases h5 : oracle 5
    · simp only [replaceRollback, h5, if_true]
      exact ⟨fun _ => Or.inr hfs1old, by simp, by simp⟩
    · have hr := fsRename_eq hfs1old selfP
      simp only [replaceRollback, h5, if_false, hr]
      refine ⟨fun _ => Or.inl (by simp [alookup]), fun _ => by simp [alookup], by simp⟩
  by_cases h4 : oracle 4
  · have hrun : replaceRun oracle fs selfP s2P oldP =
        replaceRollback oracle fs1 selfP oldP := by
      simp [replaceRun, h0, h1, h2, h3, h4, hr1]
    rw [hrun]
    exact ⟨fun hc => absurd hc hrollback.2.2, hrollback.1, hrollback.2.1⟩
  -- the second rename succeeds
  have hr2 := fsRename_eq hfs1s2 selfP
  set fs2 : FS := (selfP, cNew) :: fsRemove (fsRemove fs1 s2P) selfP with hfs2
  have hfs2self : alookup fs2 selfP = some cNew := by simp [hfs2, alookup]
  have hfs2old : alookup fs2 oldP = some cOld := by
    have hne : ¬ selfP = oldP := h13
    simp only [hfs2, alookup, hne, if_false]
    rw [alookup_fsRemove_ne (fun hc => h13 hc.symm),
        alookup_fsRemove_ne (fun hc => h23 hc.symm)]
    exact hfs1old
  by_cases h6 : oracle 6
  · have hrun : replaceRun oracle fs selfP s2P oldP = (fs2, some .reopen) := by
      simp [replaceRun, h0, h1, h2, h3, h4, h6, hr1, hr2]
    rw [hrun]
    exact ⟨by simp, fun _ => Or.inr hfs2old, by simp⟩
  by_cases h7 : oracle 7
  · have hrun : replaceRun oracle fs selfP s2P oldP = (fs2, some .cleanup) := by
      simp [replaceRun, h0, h1, h2, h3, h4, h6, h7, hr1, hr2]
    rw [hrun]
    exact ⟨by simp, fun _ => Or.inr hfs2old, by simp⟩
  · have hrun : replaceRun oracle fs selfP s2P oldP =
        (fsRemove fs2 oldP, none) := by
      simp [replaceRun, h0, h1, h2, h3, h4, h6, h7, hr1, hr2]
    rw [hrun]
    refine ⟨fun _ => ⟨?_, alookup_fsRemove_self⟩, fun hc => absurd rfl hc, by simp⟩
    rw [alookup_fsRemove_ne h13]
    exact hfs2self

/-- A fully successful run of Replace on a concrete filesystem, through the
amended atomicity theorem. -/
theorem replace_preserves_old_contents_witness :
    ((replaceRun (fun _ => false) [(['s'], 0), (['t'], 1)] ['s'] ['t'] ['o']).2 = none →
        alookup (replaceRun (fun _ => false) [(['s'], 0), (['t'], 1)]
          ['s'] ['t'] ['o']).1 ['s'] = some 1 ∧
        alookup (replaceRun (fun _ => false) [(['s'], 0), (['t'], 1)]
          ['s'] ['t'] ['o']).1 ['o'] = none) ∧
    ((replaceRun (fun _ => false) [(['s'], 0), (['t'], 1)] ['s'] ['t'] ['o']).2 ≠ none →
        alookup (replaceRun (fun _ => false) [(['s'], 0), (['t'], 1)]
          ['s'] ['t'] ['o']).1 ['s'] = some 0 ∨
        alookup (replaceRun (fun _ => false) [(['s'], 0), (['t'], 1)]
          ['s'] ['t'] ['o']).1 ['o'] = some 0) ∧
    ((replaceRun (fun _ => false) [(['s'], 0), (['t'], 1)] ['s'] ['t'] ['o']).2 =
        some (.rename2 true) →
        alookup (replaceRun (fun _ => false) [(['s'], 0), (['t'], 1)]
          ['s'] ['t'] ['o']).1 ['s'] = some 0) :=
  replace_preserves_old_contents_or_succeeds (fun _ => false)
    [(['s'], 0), (['t'], 1)] ['s'] ['t'] ['o'] 0 1
    (by decide) (by decide) (by decide) (by decide) (by decide)

theorem splitChAux_append_no_sep (sep : Char) :
    ∀ (t : List Char), sep ∉ t → ∀ (l acc : List Char),
      splitChAux sep (t ++ l) acc = splitChAux sep l (t.reverse ++ acc)
  | [], _, l, acc => by simp
  | c :: t', h, l, acc => by
    have hc : ¬ c = sep := fun hcs => h (hcs ▸ List.mem_cons_self c t')
    have ht' : sep ∉ t' := fun hm => h (List.mem_cons_of_mem c hm)
    simp only [List.cons_append, splitChAux, hc, if_false]
    rw [show t'.append l = t' ++ l from rfl,
        splitChAux_append_no_sep sep t' ht' l (c :: acc)]
    simp

theorem splitChAux_cons_sep (sep : Char) (l acc : List Char) :
    splitChAux sep (sep :: l) acc = acc.reverse :: splitChAux sep l [] := by
  simp [splitChAux]

/-- Writing tags joined on 0x1F and splitting the stored value recovers
exactly the tags, provided the list is non-empty and no tag contains the
separator byte. -/
theorem splitTags_joinVal : ∀ (ts : List GoStr), ts ≠ [] →
    (∀ t ∈ ts, sepChar ∉ t) → splitTags (joinVal ts) = ts
  | [], h, _ => absurd rfl h
  | [t], _, hsep => by
    have h1 : sepChar ∉ t := hsep t (by simp)
    have := splitChAux_append_no_sep sepChar t h1 [] []
    simp only [List.append_nil] at this
    simp [splitTags, splitCh, joinVal, this, splitChAux]
  | t :: t2 :: rest, _, hsep => by
    have h1 : sepChar ∉ t := hsep t (by simp)
    have ih := splitTags_joinVal (t2 :: rest) (by simp)
      (fun x hx => hsep x (List.mem_cons_of_mem t hx))
    simp only [joinVal, splitTags, splitCh]
    rw [show t ++ sepChar :: joinVal (t2 :: rest) =
          t ++ (sepChar :: joinVal (t2 :: rest)) from rfl,
        splitChAux_append_no_sep sepChar t h1 _ [],
        splitChAux_cons_sep]
    simp only [List.append_nil, List.reverse_reverse]
    rw [show splitChAux sepChar (joinVal (t2 :: rest)) [] =
          splitTags (joinVal (t2 :: rest)) from rfl, ih]

theorem not_sep_mem_splitChAux (sep : Char) : ∀ (l acc : List Char),
    sep ∉ acc → ∀ t ∈ splitChAux sep l acc, sep ∉ t
  | [], acc, hacc, t, ht => by
    simp only [splitChAux, List.mem_singleton] at ht
    subst ht
    simpa using hacc
  | c :: rest, acc, hacc, t, ht => by
    by_cases hc : c = sep
    · rw [hc, splitChAux_cons_sep] at ht
      rcases List.mem_cons.mp ht with h | h
      · subst h; simpa using hacc
      · exact not_sep_mem_splitChAux sep rest [] (by simp) t h
    · simp only [splitChAux, hc, if_false] at ht
      have hsc : ¬ sep = c := fun hh => hc hh.symm
      exact not_sep_mem_splitChAux sep rest (c :: acc)
        (by simp [List.mem_cons, hacc, hsc]) t ht

/-- Every component of a stored value split on 0x1F is itself free of the
separator byte. -/
theorem not_sep_mem_splitTags (v : GoStr) : ∀ t ∈ splitTags v, sepChar ∉ t :=
  not_sep_mem_splitChAux sepChar v [] (by simp)

theorem splitChAux_ne_nil (sep : Char) : ∀ (l acc : List Char),
    splitChAux sep l acc ≠ []
  | [], acc => by simp [splitChAux]
  | c :: rest, acc => by
    by_cases hc : c = sep
    · rw [hc, splitChAux_cons_sep]; simp
    · simp only [splitChAux, hc, if_false]
      exact splitChAux_ne_nil sep rest (c :: acc)

theorem splitTags_ne_nil (v : GoStr) : splitTags v ≠ [] :=
  splitChAux_ne_nil sepChar v []

theorem mem_insertStr {x t : GoStr} {l : List GoStr} :
    x ∈ insertStr t l ↔ x = t ∨ x ∈ l := by
  induction l with
  | nil => simp [insertStr]
  | cons a as ih =>
    cases h : strLeB t a with
    | true => simp [insertStr, h]
    | false =>
      simp only [insertStr, h, Bool.false_eq_true, if_false, List.mem_cons, ih]
      tauto

theorem mem_sortStrs {x : GoStr} {l : List GoStr} :
    x ∈ sortStrs l ↔ x ∈ l := by
  induction l with
  | nil => simp [sortStrs]
  | cons a as ih => simp [sortStrs, mem_insertStr, ih]

theorem mem_compactStrs : ∀ (l : List GoStr) (x : GoStr),
    x ∈ compactStrs l ↔ x ∈ l
  | [], x => by simp [compactStrs]
  | [t], x => by simp [compactStrs]
  | a :: b :: rest, x => by
    have ih := mem_compactStrs (b :: rest) x
    by_cases hab : a = b
    · rw [show compactStrs (a :: b :: rest) = compactStrs (b :: rest) by
        simp [compactStrs, hab], ih]
      subst hab
      simp only [List.mem_cons]
      tauto
    · rw [show compactStrs (a :: b :: rest) = a :: compactStrs (b :: rest) by
        simp [compactStrs, hab]]
      simp [List.mem_cons, ih]

theorem insertStr_ne_nil (t : GoStr) (l : List GoStr) : insertStr t l ≠ [] := by
  cases l with
  | nil => simp [insertStr]
  | cons a as =>
    unfold insertStr
    split <;> simp

theorem sortStrs_ne_nil {l : List GoStr} (h : l ≠ []) : sortStrs l ≠ [] := by
  cases l with
  | nil => exact absurd rfl h
  | cons a as => exact insertStr_ne_nil a (sortStrs as)

theorem compactStrs_ne_nil : ∀ (l : List GoStr), l ≠ [] → compactStrs l ≠ []
  | [], h => absurd rfl h
  | [t], _ => by simp [compactStrs]
  | a :: b :: rest, _ => by
    by_cases hab : a = b
    · rw [show compactStrs (a :: b :: rest) = compactStrs (b :: rest) by
        simp [compactStrs, hab]]
      exact compactStrs_ne_nil (b :: rest) (by simp)
    · rw [show compactStrs (a :: b :: rest) = a :: compactStrs (b :: rest) by
        simp [compactStrs, hab]]
      simp

/-- A filter map reports a tag as present for a first byte: the persisted
or in-memory filter under that byte returns true on lookup. -/
def filterHas (fm : FilterMap) (c : Char) (t : GoStr) : Prop :=
  ∃ f, alookup fm c = some f ∧ f.find t = true

theorem addAll_elems : ∀ (ts : List GoStr) (f : Filter),
    (addAll f ts).elems = ts.reverse ++ f.elems
  | [], f => by simp [addAll]
  | x :: ts, f => by
    have ih := addAll_elems ts (f.add x)
    simp only [addAll, List.foldl_cons] at ih ⊢
    rw [ih]
    simp [Filter.add]

theorem find_addAll_of_mem {ts : List GoStr} {t : GoStr} (h : t ∈ ts)
    (f : Filter) : (addAll f ts).find t = true := by
  simp only [Filter.find, addAll_elems]
  simp [h]

theorem find_addAll_mono {f : Filter} {t : GoStr} (h : f.find t = true)
    (ts : List GoStr) : (addAll f ts).find t = true := by
  simp only [Filter.find, addAll_elems]
  simp only [Filter.find] at h
  simp only [List.contains_eq_any_beq, List.any_append] at h ⊢
  simp [h]

theorem alookup_updateF_self (fm : FilterMap) (c : Char) (g : Filter → Filter) :
    alookup (updateF fm c g) c = (alookup fm c).map g := by
  induction fm with
  | nil => rfl
  | cons e rest ih =>
    rcases e with ⟨c0, f0⟩
    by_cases hc : c0 = c
    · simp [updateF, alookup, hc]
    · simp [updateF, alookup, hc, ih]

theorem alookup_updateF_ne {c c' : Char} (h : c' ≠ c) (fm : FilterMap)
    (g : Filter → Filter) : alookup (updateF fm c g) c' = alookup fm c' := by
  have hcc : ¬ c = c' := fun hh => h hh.symm
  induction fm with
  | nil => rfl
  | cons e rest ih =>
    rcases e with ⟨c0, f0⟩
    by_cases hc : c0 = c
    · have hne : ¬ c0 = c' := by rw [hc]; exact hcc
      simp [updateF, alookup, hc, hne, hcc]
    · simp [updateF, alookup, hc, ih]

/-- joinTags returns the joined value and a filter map in which every
written tag is reported present under the package's first byte. -/
theorem joinTags_adds (c : Char) (ts : List GoStr) (fm : FilterMap) :
    ∀ t ∈ ts, filterHas (joinTags c ts fm).2 c t := by
  intro t ht
  unfold joinTags
  cases hlk : alookup fm c with
  | some f =>
    refine ⟨addAll f ts, ?_, find_addAll_of_mem ht f⟩
    simp only [hlk, Option.isSome_some, if_true]
    rw [alookup_updateF_self, hlk]
    rfl
  | none =>
    refine ⟨addAll Filter.new ts, ?_, find_addAll_of_mem ht Filter.new⟩
    simp only [hlk, Option.isSome_none, Bool.false_eq_true, if_false]
    rw [alookup_updateF_self]
    simp [alookup]

/-- joinTags never loses an existing positive filter answer: filters only
grow. -/
theorem joinTags_mono {fm : FilterMap} {c' : Char} {t : GoStr}
    (h : filterHas fm c' t) (c : Char) (ts : List GoStr) :
    filterHas (joinTags c ts fm).2 c' t := by
  rcases h with ⟨f, hlk, hf⟩
  unfold joinTags
  by_cases hc : c' = c
  · subst hc
    refine ⟨addAll f ts, ?_, find_addAll_mono hf ts⟩
    simp only [hlk, Option.isSome_some, if_true]
    rw [alookup_updateF_self, hlk]
    rfl
  · refine ⟨f, ?_, hf⟩
    rw [alookup_updateF_ne hc]
    cases hlk0 : alookup fm c with
    | some f0 => simp only [hlk0, Option.isSome_some, if_true]; exact hlk
    | none =>
      simp only [hlk0, Option.isSome_none, Bool.false_eq_true, if_false, alookup]
      have : ¬ c = c' := fun hh => hc hh.symm
      simp [this, hlk]

theorem alookup_eq_none_iff {α β : Type} [DecidableEq α] (l : List (α × β))
    (k : α) : alookup l k = none ↔ k ∉ l.map Prod.fst := by
  induction l with
  | nil => simp [alookup]
  | cons e rest ih =>
    by_cases hk : e.1 = k
    · simp [alookup, hk]
    · have hkk : ¬ k = e.1 := fun hh => hk hh.symm
      simp [alookup, hk, hkk, ih]

theorem fmKeys_updateF (fm : FilterMap) (c : Char) (g : Filter → Filter) :
    (updateF fm c g).map Prod.fst = fm.map Prod.fst := by
  induction fm with
  | nil => rfl
  | cons e rest ih =>
    by_cases hc : e.1 = c
    · rcases e with ⟨c0, f0⟩
      simp only at hc
      simp [updateF, hc]
    · rcases e with ⟨c0, f0⟩
      simp only at hc
      simp [updateF, hc, ih]

theorem joinTags_keys_nodup {fm : FilterMap}
    (h : (fm.map Prod.fst).Nodup) (c : Char) (ts : List GoStr) :
    ((joinTags c ts fm).2.map Prod.fst).Nodup := by
  unfold joinTags
  cases hlk : alookup fm c with
  | some f =>
    simp only [hlk, Option.isSome_some, if_true, fmKeys_updateF]
    exact h
  | none =>
    simp only [hlk, Option.isSome_none, Bool.false_eq_true, if_false,
               fmKeys_updateF, List.map_cons, List.nodup_cons]
    exact ⟨(alookup_eq_none_iff fm c).mp hlk, h⟩

theorem alookup_fmSet_self (m : FilterMap) (c : Char) (f : Filter) :
    alookup (fmSet m c f) c = some f := by
  induction m with
  | nil => simp [fmSet, alookup]
  | cons e rest ih =>
    rcases e with ⟨c0, f0⟩
    by_cases hc : c0 = c
    · simp [fmSet, alookup, hc]
    · simp [fmSet, alookup, hc, ih]

theorem alookup_fmSet_ne {c c' : Char} (h : c' ≠ c) (m : FilterMap)
    (f : Filter) : alookup (fmSet m c f) c' = alookup m c' := by
  have hcc : ¬ c = c' := fun hh => h hh.symm
  induction m with
  | nil => simp [fmSet, alookup, hcc]
  | cons e rest ih =>
    rcases e with ⟨c0, f0⟩
    by_cases hc : c0 = c
    · have hne : ¬ c0 = c' := by rw [hc]; exact hcc
      simp [fmSet, alookup, hc, hne, hcc]
    · simp [fmSet, alookup, hc, ih]

theorem alookup_writeFilters_not_mem {fm : FilterMap} {c : Char}
    (h : c ∉ fm.map Prod.fst) : ∀ (m : FilterMap),
    alookup (writeFilters m fm) c = alookup m c := by
  induction fm with
  | nil => intro m; rfl
  | cons e rest ih =>
    intro m
    rcases e with ⟨c0, f0⟩
    simp only [List.map_cons, List.mem_cons] at h
    push_neg at h
    have hstep : writeFilters m ((c0, f0) :: rest) =
        writeFilters (fmSet m c0 f0) rest := rfl
    rw [hstep, ih h.2, alookup_fmSet_ne (fun hh => h.1 hh)]

/-- Persisting a duplicate-free filter map stores exactly the filters the
map holds: looking up a first byte in the persisted shard returns the same
filter as the in-memory map. -/
theorem alookup_writeFilters_nodup : ∀ (fm : FilterMap),
    (fm.map Prod.fst).Nodup → ∀ (m : FilterMap) (c : Char),
    alookup (writeFilters m fm) c =
      match alookup fm c with
      | some f => some f
      | none => alookup m c
  | [], _, m, c => by simp [writeFilters, alookup]
  | (c0, f0) :: rest, h, m, c => by
    simp only [List.map_cons, List.nodup_cons] at h
    have hstep : writeFilters m ((c0, f0) :: rest) =
        writeFilters (fmSet m c0 f0) rest := rfl
    rw [hstep]
    by_cases hc : c0 = c
    · subst hc
      rw [alookup_writeFilters_not_mem h.1 (fmSet m c0 f0),
          alookup_fmSet_self]
      simp [alookup]
    · rw [alookup_writeFilters_nodup rest h.2 (fmSet m c0 f0) c]
      simp only [alookup, hc, if_false]
      cases alookup rest c with
      | some f => rfl
      | none => exact alookup_fmSet_ne (fun hh => hc hh.symm) m f0

theorem mergedTags_sep_free (db0 : List (GoStr × GoStr)) (name : GoStr)
    {tags : List GoStr} (hsep : ∀ t ∈ tags, sepChar ∉ t) :
    ∀ t ∈ mergedTags db0 name tags, sepChar ∉ t := by
  intro t ht
  unfold mergedTags at ht
  cases hcur : alookup db0 name with
  | none =>
    rw [hcur] at ht
    exact hsep t (mem_sortStrs.mp ((mem_compactStrs _ t).mp ht))
  | some cur =>
    rw [hcur] at ht
    have := mem_sortStrs.mp ((mem_compactStrs _ t).mp ht)
    rcases List.mem_append.mp this with h | h
    · exact not_sep_mem_splitTags cur t h
    · exact hsep t h

theorem mergedTags_ne_nil (db0 : List (GoStr × GoStr)) (name : GoStr)
    {tags : List GoStr} (h : tags ≠ []) :
    mergedTags db0 name tags ≠ [] := by
  unfold mergedTags
  cases alookup db0 name with
  | none => exact compactStrs_ne_nil _ (sortStrs_ne_nil h)
  | some cur =>
    refine compactStrs_ne_nil _ (sortStrs_ne_nil ?_)
    simp [h, splitTags_ne_nil cur]

theorem writeBatchItems_inv (db0 : List (GoStr × GoStr)) :
    ∀ (items : List (GoStr × List GoStr)) (fm : FilterMap),
    (∀ it ∈ items, ∀ t ∈ it.2, sepChar ∉ t) →
    (∀ c t, filterHas fm c t → filterHas (writeBatchItems db0 items fm).2 c t) ∧
    (∀ kv ∈ (writeBatchItems db0 items fm).1, ∃ c r, kv.1 = c :: r ∧
        ∀ t ∈ splitTags kv.2, filterHas (writeBatchItems db0 items fm).2 c t) ∧
    ((fm.map Prod.fst).Nodup →
        ((writeBatchItems db0 items fm).2.map Prod.fst).Nodup)
  | [], fm, _ => by
    refine ⟨fun c t h => h, ?_, fun h => h⟩
    intro kv hkv
    simp [writeBatchItems] at hkv
  | ([], tags) :: rest, fm, hsep => by
    have hstep : writeBatchItems db0 (([], tags) :: rest) fm =
        writeBatchItems db0 rest fm := rfl
    rw [hstep]
    exact writeBatchItems_inv db0 rest fm
      (fun it hit => hsep it (List.mem_cons_of_mem _ hit))
  | (c :: nrest, []) :: rest, fm, hsep => by
    have hstep : writeBatchItems db0 ((c :: nrest, []) :: rest) fm =
        writeBatchItems db0 rest fm := rfl
    rw [hstep]
    exact writeBatchItems_inv db0 rest fm
      (fun it hit => hsep it (List.mem_cons_of_mem _ hit))
  | (c :: nrest, tg :: tgs) :: rest, fm, hsep => by
    have hstep : writeBatchItems db0 ((c :: nrest, tg :: tgs) :: rest) fm =
        ((c :: nrest,
            (joinTags c (mergedTags db0 (c :: nrest) (tg :: tgs)) fm).1) ::
          (writeBatchItems db0 rest
            (joinTags c (mergedTags db0 (c :: nrest) (tg :: tgs)) fm).2).1,
         (writeBatchItems db0 rest
            (joinTags c (mergedTags db0 (c :: nrest) (tg :: tgs)) fm).2).2) := rfl
    have hsepTg : ∀ t ∈ (tg :: tgs), sepChar ∉ t :=
      hsep (c :: nrest, tg :: tgs) (List.mem_cons_self _ _)
    have hsepM := mergedTags_sep_free db0 (c :: nrest) hsepTg
    have hneM := mergedTags_ne_nil db0 (c :: nrest)
      (List.cons_ne_nil tg tgs)
    have ih := writeBatchItems_inv db0 rest
      (joinTags c (mergedTags db0 (c :: nrest) (tg :: tgs)) fm).2
      (fun it hit => hsep it (List.mem_cons_of_mem _ hit))
    rw [hstep]
    refine ⟨?_, ?_, ?_⟩
    · intro c' t h
      exact ih.1 c' t (joinTags_mono h c _)
    · intro kv hkv
      rcases List.mem_cons.mp hkv with hkv | hkv
    -- the staged write of this record
      · subst hkv
        refine ⟨c, nrest, rfl, ?_⟩
        intro t ht
        have hval : (joinTags c (mergedTags db0 (c :: nrest) (tg :: tgs)) fm).1 =
            joinVal (mergedTags db0 (c :: nrest) (tg :: tgs)) := rfl
        rw [hval, splitTags_joinVal _ hneM hsepM] at ht
        exact ih.1 c t (joinTags_adds c _ fm t ht)
      · exact ih.2.1 kv hkv
    · intro hnod
      exact ih.2.2 (joinTags_keys_nodup hnod c _)

theorem mem_dbSet : ∀ {d : List (GoStr × GoStr)} {k v : GoStr}
    {kv : GoStr × GoStr}, kv ∈ dbSet d k v → kv ∈ d ∨ kv = (k, v) := by
  intro d
  induction d with
  | nil =>
    intro k v kv h
    simp only [dbSet, List.mem_singleton] at h
    exact Or.inr h
  | cons e rest ih =>
    intro k v kv h
    by_cases hk : e.1 = k
    · rcases e with ⟨k0, v0⟩
      simp only at hk
      simp only [dbSet, hk, if_true, List.mem_cons] at h
      rcases h with h | h
      · exact Or.inr h
      · exact Or.inl (List.mem_cons_of_mem _ h)
    · rcases e with ⟨k0, v0⟩
      simp only at hk
      simp only [dbSet, hk, if_false, List.mem_cons] at h
      rcases h with h | h
      · exact Or.inl (h ▸ List.mem_cons_self _ _)
      · rcases ih h with h2 | h2
        · exact Or.inl (List.mem_cons_of_mem _ h2)
        · exact Or.inr h2

theorem mem_foldl_dbSet : ∀ (ws : List (GoStr × GoStr))
    (d : List (GoStr × GoStr)) {kv : GoStr × GoStr},
    kv ∈ ws.foldl (fun d kv => dbSet d kv.1 kv.2) d → kv ∈ d ∨ kv ∈ ws
  | [], d, kv, h => Or.inl h
  | w :: ws, d, kv, h => by
    rcases mem_foldl_dbSet ws (dbSet d w.1 w.2) h with h2 | h2
    · rcases mem_dbSet h2 with h3 | h3
      · exact Or.inl h3
      · exact Or.inr (h3 ▸ List.mem_cons_self _ _)
    · exact Or.inr (List.mem_cons_of_mem _ h2)

/-- The invariant carried through a refresh: every database entry has a
non-empty name, and every component of its stored value is reported
present by the in-memory filter of the name's first byte. -/
def dbInv (db : List (GoStr × GoStr)) (fm : FilterMap) : Prop :=
  ∀ kv ∈ db, ∃ c r, kv.1 = c :: r ∧ ∀ t ∈ splitTags kv.2, filterHas fm c t

theorem writeBatch_inv {db : List (GoStr × GoStr)} {fm : FilterMap}
    (items : List (GoStr × List GoStr)) (hdb : dbInv db fm)
    (hsep : ∀ it ∈ items, ∀ t ∈ it.2, sepChar ∉ t)
    (hnod : (fm.map Prod.fst).Nodup) :
    dbInv (writeBatch db fm items).1 (writeBatch db fm items).2 ∧
    ((writeBatch db fm items).2.map Prod.fst).Nodup := by
  have hinv := writeBatchItems_inv db items fm hsep
  constructor
  · intro kv hkv
    have hmem := mem_foldl_dbSet (writeBatchItems db items fm).1 db hkv
    rcases hmem with h | h
    · rcases hdb kv h with ⟨c, r, hname, hall⟩
      exact ⟨c, r, hname, fun t ht => hinv.1 c t (hall t ht)⟩
    · exact hinv.2.1 kv h
  · exact hinv.2.2 hnod

theorem refresh_aux : ∀ (batches : List (List (GoStr × List GoStr)))
    (st : List (GoStr × GoStr) × FilterMap),
    dbInv st.1 st.2 → (st.2.map Prod.fst).Nodup →
    (∀ b ∈ batches, ∀ it ∈ b, ∀ t ∈ it.2, sepChar ∉ t) →
    dbInv (batches.foldl (fun s b => writeBatch s.1 s.2 b) st).1
        (batches.foldl (fun s b => writeBatch s.1 s.2 b) st).2 ∧
    ((batches.foldl (fun s b => writeBatch s.1 s.2 b) st).2.map Prod.fst).Nodup
  | [], st, hdb, hnod, _ => ⟨hdb, hnod⟩
  | b :: batches, st, hdb, hnod, hsep => by
    have hw := writeBatch_inv b hdb
      (hsep b (List.mem_cons_self _ _)) hnod
    exact refresh_aux batches (writeBatch st.1 st.2 b) hw.1 hw.2
      (fun b' hb' => hsep b' (List.mem_cons_of_mem _ hb'))

/-- C2 amended: after a refresh that starts from an empty shadow shard and
writes any sequence of batches whose tags are free of the 0x1F separator
byte, every stored package has a non-empty name and the bloom filter that
WriteFilters persists under the name's first byte reports every tag of the
stored value as present. Without the separator-byte proviso the claim
fails, since a tag containing 0x1F is inserted whole into the filter but
splits into fragments in the stored value. -/
theorem refresh_filters_no_false_negative_on_clean_tags
    (batches : List (List (GoStr × List GoStr)))
    (hsep : ∀ b ∈ batches, ∀ it ∈ b, ∀ t ∈ it.2, sepChar ∉ t) :
    ∀ kv ∈ (refreshBatches batches).1, ∃ c r, kv.1 = c :: r ∧
      ∃ f, alookup (writeFilters [] (refreshBatches batches).2) c = some f ∧
        ∀ t ∈ splitTags kv.2, f.find t = true := by
  have hinv := refresh_aux batches ([], []) (fun kv hkv => absurd hkv (by simp))
    (by simp) hsep
  intro kv hkv
  simp only [refreshBatches] at hkv ⊢
  rcases hinv.1 kv hkv with ⟨c, r, hname, hall⟩
  refine ⟨c, r, hname, ?_⟩
  rcases List.exists_mem_of_ne_nil _ (splitTags_ne_nil kv.2) with ⟨t0, ht0⟩
  rcases hall t0 ht0 with ⟨f, hlk, _⟩
  refine ⟨f, ?_, ?_⟩
  · rw [alookup_writeFilters_nodup _ hinv.2 [] c, hlk]
  · intro t ht
    rcases hall t ht with ⟨f', hlk', hf'⟩
    rw [hlk] at hlk'
    cases hlk'
    exact hf'

/-- A concrete one-batch refresh of a single clean-tagged package, through
the amended filter invariant. -/
theorem refresh_filters_no_false_negative_witness :
    ∃ c r, ("a".data : GoStr) = c :: r ∧
      ∃ f, alookup (writeFilters []
          (refreshBatches [[("a".data, ["k=v".data])]]).2) c = some f ∧
        ∀ t ∈ splitTags "k=v".data, f.find t = true :=
  refresh_filters_no_false_negative_on_clean_tags
    [[("a".data, ["k=v".data])]] (by decide)
    ("a".data, "k=v".data) (by decide)

/-- C2 counterexample: ingesting the single tag k=x followed by the 0x1F
byte and y stores a value whose split contains the fragment k=x, yet the
persisted filter for first byte a holds only the whole tag, so the lookup
of the stored fragment returns false. -/
theorem refresh_filter_misses_split_fragment_of_separator_tag :
    refreshBatches [[("a".data, ["k=x\x1Fy".data])]] =
      ([("a".data, "k=x\x1Fy".data)], [('a', ⟨["k=x\x1Fy".data]⟩)]) ∧
    "k=x".data ∈ splitTags "k=x\x1Fy".data ∧
    writeFilters [] [('a', ⟨["k=x\x1Fy".data]⟩)] =
      [('a', ⟨["k=x\x1Fy".data]⟩)] ∧
    Filter.find ⟨["k=x\x1Fy".data]⟩ "k=x".data = false := by
  exact ⟨by decide, by decide, by decide, by decide⟩

/-- Every result of a partition scan arises from a stored package of that
partition: its overlap is the filtered input tag list, its confidence the
ratio of lengths, its package the stored name with the split value, and
its confidence is nonzero by the guard that drops zero-confidence rows. -/
theorem scanPartition_some {s : Shard} {c : Char} {f : Filter}
    (tags : List GoStr) (hlk : alookup s.filters c = some f) :
    scanPartition s tags c =
      if tags.any (fun t => f.find t) then
        (s.pkgs.filter (fun p => p.1.head? = some c)).filterMap (fun p =>
          let ptags := splitTags p.2
          let ov := overlapList tags ptags
          let conf : ℚ := mkRat ov.length tags.length
          if conf = 0 then none
          else some ⟨conf, ov, ⟨p.1, ptags⟩⟩)
      else [] := by
  unfold scanPartition
  rw [hlk]

theorem scanPartition_none {s : Shard} {c : Char} (tags : List GoStr)
    (hlk : alookup s.filters c = none) : scanPartition s tags c = [] := by
  unfold scanPartition
  rw [hlk]

theorem mem_scanPartition {s : Shard} {tags : List GoStr} {c : Char}
    {r : TagResult} (h : r ∈ scanPartition s tags c) :
    ∃ p ∈ s.pkgs,
      r.overlap = overlapList tags (splitTags p.2) ∧
      r.confidence = mkRat r.overlap.length tags.length ∧
      r.package = ⟨p.1, splitTags p.2⟩ ∧
      r.confidence ≠ 0 := by
  cases hlk : alookup s.filters c with
  | none =>
    rw [scanPartition_none tags hlk] at h
    cases h
  | some f =>
    rw [scanPartition_some tags hlk] at h
    by_cases hgate : tags.any (fun t => f.find t) = true
    · rw [if_pos hgate] at h
      rcases List.mem_filterMap.mp h with ⟨p, hp, hf⟩
      simp only at hf
      split at hf
      · cases hf
      · rcases Option.some.inj hf with rfl
        refine ⟨p, (List.mem_filter.mp hp).1, rfl, rfl, rfl, ?_⟩
        simpa using (by assumption : ¬ mkRat
          (overlapList tags (splitTags p.2)).length tags.length = 0)
    · rw [if_neg hgate] at h
      cases h

/-- C1: every result a search returns carries a confidence equal to the
overlap length divided by the input tag count, an overlap contained in
both the input tags and the matched package's tags, and a confidence in
the half-open unit interval: strictly positive and at most one. -/
theorem search_results_confidence_overlap (s : Shard) (tags : List GoStr)
    (res : List TagResult) (hok : searchShard s tags = .ok res) :
    ∀ r ∈ res,
      r.confidence = (r.overlap.length : ℚ) / (tags.length : ℚ) ∧
      (∀ t ∈ r.overlap, t ∈ tags ∧ t ∈ r.package.tags) ∧
      0 < r.confidence ∧ r.confidence ≤ 1 := by
  intro r hr
  unfold searchShard at hok
  split at hok
  case isFalse => cases hok
  case isTrue hall =>
    have hres : res = sortResults ((startChars.map (scanPartition s tags)).flatten) :=
      (Except.ok.inj hok).symm
    rw [hres] at hr
    have hr' := mem_sortResults.mp hr
    rcases List.mem_flatten.mp hr' with ⟨l, hl, hrl⟩
    rcases List.mem_map.mp hl with ⟨c, hc, rfl⟩
    rcases mem_scanPartition hrl with ⟨p, hp, hov, hconf, hpkg, hne⟩
    have hdne : tags.length ≠ 0 := by
      intro hd
      rw [hd] at hconf
      simp [hconf] at hne
    have hdpos : (0 : ℚ) < (tags.length : ℚ) := by
      have : 0 < tags.length := Nat.pos_of_ne_zero hdne
      positivity
    have hconfdiv : r.confidence =
        (r.overlap.length : ℚ) / (tags.length : ℚ) := by
      rw [hconf, Rat.mkRat_eq_div, Int.cast_natCast]
    refine ⟨hconfdiv, ?_, ?_, ?_⟩
    · intro t ht
      rw [hov] at ht
      have := List.mem_filter.mp ht
      refine ⟨this.1, ?_⟩
      rw [hpkg]
      simpa using this.2
    · rcases lt_or_eq_of_le (by rw [hconfdiv]; positivity :
        (0 : ℚ) ≤ r.confidence) with hpos | hzero
      · exact hpos
      · exact absurd hzero.symm hne
    · rw [hconfdiv, div_le_one hdpos]
      have : r.overlap.length ≤ tags.length := by
        rw [hov]
        exact List.length_filter_le _ tags
      exact_mod_cast this

/-- A concrete search on a one-package shard, through the per-result
properties theorem. -/
theorem search_results_confidence_overlap_witness :
    (⟨1, ["a=1".data], ⟨"alpha".data, ["a=1".data]⟩⟩ : TagResult).confidence =
      (((⟨1, ["a=1".data], ⟨"alpha".data, ["a=1".data]⟩⟩ : TagResult).overlap.length : ℚ) /
        ((["a=1".data] : List GoStr).length : ℚ)) ∧
    (∀ t ∈ (⟨1, ["a=1".data], ⟨"alpha".data, ["a=1".data]⟩⟩ : TagResult).overlap,
      t ∈ (["a=1".data] : List GoStr) ∧
      t ∈ (⟨1, ["a=1".data], ⟨"alpha".data, ["a=1".data]⟩⟩ : TagResult).package.tags) ∧
    0 < (⟨1, ["a=1".data], ⟨"alpha".data, ["a=1".data]⟩⟩ : TagResult).confidence ∧
    (⟨1, ["a=1".data], ⟨"alpha".data, ["a=1".data]⟩⟩ : TagResult).confidence ≤ 1 :=
  search_results_confidence_overlap
    ⟨[("alpha".data, "a=1".data)], [('a', ⟨["a=1".data]⟩)]⟩ ["a=1".data]
    [⟨1, ["a=1".data], ⟨"alpha".data, ["a=1".data]⟩⟩] (by decide)
    ⟨1, ["a=1".data], ⟨"alpha".data, ["a=1".data]⟩⟩ (by decide)

theorem result_mem_scanPartition {s : Shard} {c : Char} {f : Filter}
    {tags : List GoStr} (hlk : alookup s.filters c = some f)
    (hgate : tags.any (fun t => f.find t) = true)
    {p : GoStr × GoStr} (hp : p ∈ s.pkgs) (hhead : p.1.head? = some c)
    (hne : mkRat (overlapList tags (splitTags p.2)).length tags.length ≠ 0) :
    (⟨mkRat (overlapList tags (splitTags p.2)).length tags.length,
       overlapList tags (splitTags p.2), ⟨p.1, splitTags p.2⟩⟩ : TagResult) ∈
      scanPartition s tags c := by
  rw [scanPartition_some tags hlk, if_pos hgate]
  refine List.mem_filterMap.mpr ⟨p, List.mem_filter.mpr ⟨hp, by simp [hhead]⟩, ?_⟩
  show (if mkRat (overlapList tags (splitTags p.2)).length tags.length = 0
    then none
    else some (⟨mkRat (overlapList tags (splitTags p.2)).length tags.length,
      overlapList tags (splitTags p.2), ⟨p.1, splitTags p.2⟩⟩ : TagResult)) =
    some (⟨mkRat (overlapList tags (splitTags p.2)).length tags.length,
      overlapList tags (splitTags p.2), ⟨p.1, splitTags p.2⟩⟩ : TagResult)
  rw [if_neg hne]

theorem mem_scanPartition_full {s : Shard} {tags : List GoStr} {c : Char}
    {r : TagResult} (h : r ∈ scanPartition s tags c) :
    ∃ f, alookup s.filters c = some f ∧ (∃ t ∈ tags, f.find t = true) ∧
      ∃ p ∈ s.pkgs, p.1.head? = some c ∧
        r = ⟨mkRat (overlapList tags (splitTags p.2)).length tags.length,
             overlapList tags (splitTags p.2), ⟨p.1, splitTags p.2⟩⟩ ∧
        mkRat (overlapList tags (splitTags p.2)).length tags.length ≠ 0 := by
  cases hlk : alookup s.filters c with
  | none =>
    rw [scanPartition_none tags hlk] at h
    cases h
  | some f =>
    rw [scanPartition_some tags hlk] at h
    by_cases hgate : tags.any (fun t => f.find t) = true
    · rw [if_pos hgate] at h
      rcases List.mem_filterMap.mp h with ⟨p, hp, hf⟩
      rcases List.mem_filter.mp hp with ⟨hps, hhead⟩
      simp only at hf
      split at hf
      · cases hf
      · rcases Option.some.inj hf with rfl
        exact ⟨f, rfl, List.any_eq_true.mp hgate, p, hps, by simpa using hhead,
          rfl, by assumption⟩
    · rw [if_neg hgate] at h
      cases h

theorem searchSetEq_forward {s : Shard} {t1 t2 : List GoStr}
    {r1 r2 : List TagResult} (hn1 : t1.Nodup) (hn2 : t2.Nodup)
    (hset : ∀ t, t ∈ t1 ↔ t ∈ t2)
    (ho1 : searchShard s t1 = .ok r1) (ho2 : searchShard s t2 = .ok r2) :
    ∀ r ∈ r1, ∃ q ∈ r2, q.package = r.package ∧ q.confidence = r.confidence ∧
      (∀ t, t ∈ q.overlap ↔ t ∈ r.overlap) := by
  intro r hr
  unfold searchShard at ho1 ho2
  split at ho1
  case isFalse => cases ho1
  case isTrue hall1 =>
  split at ho2
  case isFalse => cases ho2
  case isTrue hall2 =>
  have hr1eq : r1 = sortResults ((startChars.map (scanPartition s t1)).flatten) :=
    (Except.ok.inj ho1).symm
  have hr2eq : r2 = sortResults ((startChars.map (scanPartition s t2)).flatten) :=
    (Except.ok.inj ho2).symm
  rw [hr1eq] at hr
  have hr' := mem_sortResults.mp hr
  rcases List.mem_flatten.mp hr' with ⟨l, hl, hrl⟩
  rcases List.mem_map.mp hl with ⟨c, hc, rfl⟩
  rcases mem_scanPartition_full hrl with
    ⟨f, hlk, ⟨tw, htw, hfw⟩, p, hp, hhead, hreq, hne⟩
  have hlen12 : t1.length = t2.length :=
    ((List.perm_ext_iff_of_nodup hn1 hn2).mpr hset).length_eq
  have hov12 : (overlapList t1 (splitTags p.2)).length =
      (overlapList t2 (splitTags p.2)).length := by
    refine ((List.perm_ext_iff_of_nodup (hn1.filter _) (hn2.filter _)).mpr ?_).length_eq
    intro x
    simp only [overlapList, List.mem_filter]
    rw [hset x]
  have hconf12 : mkRat (overlapList t2 (splitTags p.2)).length t2.length =
      mkRat (overlapList t1 (splitTags p.2)).length t1.length := by
    rw [hov12, hlen12]
  have hne2 : mkRat (overlapList t2 (splitTags p.2)).length t2.length ≠ 0 := by
    rw [hconf12]
    exact hne
  have hgate2 : t2.any (fun t => f.find t) = true :=
    List.any_eq_true.mpr ⟨tw, (hset tw).mp htw, hfw⟩
  have hq := result_mem_scanPartition hlk hgate2 hp hhead hne2
  refine ⟨⟨mkRat (overlapList t2 (splitTags p.2)).length t2.length,
           overlapList t2 (splitTags p.2), ⟨p.1, splitTags p.2⟩⟩, ?_, ?_, ?_, ?_⟩
  · rw [hr2eq]
    exact mem_sortResults.mpr (List.mem_flatten.mpr
      ⟨scanPartition s t2 c, List.mem_map.mpr ⟨c, hc, rfl⟩, hq⟩)
  · rw [hreq]
  · rw [hreq]
    exact hconf12
  · intro t
    rw [hreq]
    simp only [overlapList, List.mem_filter]
    rw [hset t]

/-- C7 amended: over the same shard contents, two duplicate-free tag lists
with equal underlying sets produce, for each result of the one search, a
result of the other search for the same package with the same confidence
and the same set of overlap tags, in both directions. Duplicate-free is
required: the confidence divides by the length of the input list, which
set equality alone does not fix. -/
theorem search_set_equal_nodup_same_results (s : Shard) (t1 t2 : List GoStr)
    (r1 r2 : List TagResult) (hn1 : t1.Nodup) (hn2 : t2.Nodup)
    (hset : ∀ t, t ∈ t1 ↔ t ∈ t2)
    (ho1 : searchShard s t1 = .ok r1) (ho2 : searchShard s t2 = .ok r2) :
    (∀ r ∈ r1, ∃ q ∈ r2, q.package = r.package ∧ q.confidence = r.confidence ∧
      (∀ t, t ∈ q.overlap ↔ t ∈ r.overlap)) ∧
    (∀ q ∈ r2, ∃ r ∈ r1, r.package = q.package ∧ r.confidence = q.confidence ∧
      (∀ t, t ∈ r.overlap ↔ t ∈ q.overlap)) :=
  ⟨searchSetEq_forward hn1 hn2 hset ho1 ho2,
   searchSetEq_forward hn2 hn1 (fun t => (hset t).symm) ho2 ho1⟩

/-- Two duplicate-free permutations of the same tag set searched over a
one-package shard, through the amended set-invariance theorem. -/
theorem search_set_equal_nodup_same_results_witness :
    (∀ r ∈ [(⟨mkRat 1 2, ["a=1".data], ⟨"alpha".data, ["a=1".data]⟩⟩ : TagResult)],
      ∃ q ∈ [(⟨mkRat 1 2, ["a=1".data], ⟨"alpha".data, ["a=1".data]⟩⟩ : TagResult)],
        q.package = r.package ∧ q.confidence = r.confidence ∧
        (∀ t, t ∈ q.overlap ↔ t ∈ r.overlap)) ∧
    (∀ q ∈ [(⟨mkRat 1 2, ["a=1".data], ⟨"alpha".data, ["a=1".data]⟩⟩ : TagResult)],
      ∃ r ∈ [(⟨mkRat 1 2, ["a=1".data], ⟨"alpha".data, ["a=1".data]⟩⟩ : TagResult)],
        r.package = q.package ∧ r.confidence = q.confidence ∧
        (∀ t, t ∈ r.overlap ↔ t ∈ q.overlap)) :=
  search_set_equal_nodup_same_results
    ⟨[("alpha".data, "a=1".data)], [('a', ⟨["a=1".data]⟩)]⟩
    ["a=1".data, "b=2".data] ["b=2".data, "a=1".data]
    [⟨mkRat 1 2, ["a=1".data], ⟨"alpha".data, ["a=1".data]⟩⟩]
    [⟨mkRat 1 2, ["a=1".data], ⟨"alpha".data, ["a=1".data]⟩⟩]
    (by decide) (by decide)
    (fun t => by simp only [List.mem_cons, List.not_mem_nil, or_false]; tauto)
    (by decide) (by decide)

/-- C7 counterexample: the tag lists a=1,b=2 and a=1,a=1,b=2 have the same
underlying set, yet over the same shard the first search scores the
matched package one half and the second two thirds, because the duplicate
raises both the overlap count and the divisor. -/
theorem search_set_equal_with_duplicates_differs :
    (∀ t : GoStr, t ∈ (["a=1".data, "b=2".data] : List GoStr) ↔
        t ∈ (["a=1".data, "a=1".data, "b=2".data] : List GoStr)) ∧
    searchShard ⟨[("alpha".data, "a=1".data)], [('a', ⟨["a=1".data]⟩)]⟩
        ["a=1".data, "b=2".data] =
      .ok [⟨mkRat 1 2, ["a=1".data], ⟨"alpha".data, ["a=1".data]⟩⟩] ∧
    searchShard ⟨[("alpha".data, "a=1".data)], [('a', ⟨["a=1".data]⟩)]⟩
        ["a=1".data, "a=1".data, "b=2".data] =
      .ok [⟨mkRat 2 3, ["a=1".data, "a=1".data], ⟨"alpha".data, ["a=1".data]⟩⟩] ∧
    (mkRat 1 2 : ℚ) ≠ mkRat 2 3 := by
  refine ⟨?_, by decide, by decide, by decide⟩
  intro t
  simp only [List.mem_cons, List.not_mem_nil, or_false]
  tauto

end Distrohop
